import Mathlib

/-!
Verification of the simple blockchain program in src/main.py.

Shallow embedding. The SHA-256 digest of the JSON serialization of a
dictionary is modelled by an abstract function `H : Block → String`:
the Python code hashes `json.dumps(self.__dict__, sort_keys=True)`, and
since `json.dumps` with sorted keys is injective on dictionary contents,
the dictionary itself (the `Block` structure below, whose fields are
exactly the attributes the Python objects carry, with the `hash`
attribute optional because it is absent until assigned) is a faithful
stand-in for the hashed byte string. Collision resistance of SHA-256 is
modelled, where a claim needs it, by an explicit hypothesis that the two
relevant digests differ.

Time (datetime.now) is modelled by passing the timestamp string
explicitly to the operations that construct blocks.
-/

/-- The Transaction class: sender, receiver, data, amount, timestamp.
The timestamp is assigned at construction from the wall clock, so it is a
plain field here. -/
structure Transaction where
  sender : String
  receiver : String
  data : String
  amount : Int
  timestamp : String
deriving DecidableEq, Repr

/-- An entry of a blocks transaction list. In the Python code this is a
JSON dictionary: either the fixed genesis marker dictionary (single key
"transaction" mapped to "Genesis Block") or the dictionary obtained by
json.loads(str(t)) for a Transaction t, which carries exactly the five
Transaction fields. The two dictionary shapes have different key sets,
hence distinct constructors. -/
inductive TxEntry where
  | genesisMarker : TxEntry
  | ofTx : Transaction → TxEntry
deriving DecidableEq, Repr

/-- The previous_hash attribute is dynamically typed in Python: the
genesis block stores the integer 0, every mined block stores the hash
string of the predecessor. -/
inductive PrevHash where
  | intVal : Int → PrevHash
  | strVal : String → PrevHash
deriving DecidableEq, Repr

/-- The Block class. The fields are exactly the attributes of the Python
object in the order __init__ assigns them; `hash` is the attribute that
add_block or create_genesis_block assigns later, absent (none) until
then. compute_hash serializes the whole __dict__, so the `hash`
attribute, once present, is part of the hashed content. -/
structure Block where
  index : Nat
  transactions : List TxEntry
  timestamp : String
  previous_hash : PrevHash
  nonce : Nat
  hash : Option String := none
deriving DecidableEq, Repr

/-- Block.compute_hash: sha256 of the canonical JSON serialization of
__dict__. With the digest abstracted as `H`, this is application of `H`
to the whole current attribute record, `hash` attribute included when
present. -/
def Block.compute_hash (H : Block → String) (b : Block) : String :=
  H b

/-- Blockchain.DIFFICULTY = 3: required count of leading zero characters. -/
def DIFFICULTY : Nat := 3

/-- The difficulty target string, Python expression: the character 0
repeated DIFFICULTY times. -/
def zeroTarget : String :=
  String.mk (List.replicate DIFFICULTY (Char.ofNat 48))

/-- The Blockchain object state: the unconfirmed transaction pool and
the chain of blocks. -/
structure Blockchain where
  unconfirmed_transactions : List Transaction
  chain : List Block
deriving DecidableEq, Repr

/-- Blockchain.create_genesis_block: builds Block(0, [genesis marker], 0),
computes its hash while the hash attribute is still absent, assigns it,
and appends the block to the chain. -/
def create_genesis_block (H : Block → String) (ts : String)
    (s : Blockchain) : Blockchain :=
  let genesis_block : Block :=
    { index := 0, transactions := [TxEntry.genesisMarker], timestamp := ts,
      previous_hash := PrevHash.intVal 0, nonce := 0, hash := none }
  let g2 : Block :=
    { genesis_block with hash := some (Block.compute_hash H genesis_block) }
  { s with chain := s.chain ++ [g2] }

/-- Blockchain.__init__: empty pool, empty chain, then genesis creation. -/
def Blockchain.init (H : Block → String) (ts : String) : Blockchain :=
  create_genesis_block H ts
    { unconfirmed_transactions := [], chain := [] }

/-- Blockchain.last_block: self.chain[-1]. Partial in Python (IndexError
on an empty chain), hence Option here; every reachable state has a
nonempty chain. -/
def Blockchain.last_block (s : Blockchain) : Option Block :=
  s.chain.getLast?

/-- The Python comparison previous_hash == block.previous_hash, where the
left side is the hash attribute of the tip, always a string. A string
never equals an int in Python. -/
def prevHashMatches (s : String) : PrevHash → Bool
  | PrevHash.strVal t => s == t
  | PrevHash.intVal _ => false

/-- Python str.startswith, modelled on the character sequence of the
strings so that it evaluates by kernel reduction. -/
def strStartsWith (s t : String) : Bool :=
  t.toList.isPrefixOf s.toList

/-- Blockchain.is_valid_proof(block, block_hash): block_hash starts with
DIFFICULTY zero characters and block_hash equals block.compute_hash(). -/
def is_valid_proof (H : Block → String) (block : Block)
    (block_hash : String) : Bool :=
  strStartsWith block_hash zeroTarget &&
    block_hash == Block.compute_hash H block

/-- The while loop of Blockchain.proof_of_work, with explicit fuel for
the unbounded search: compute the hash at the current nonce; while it
does not start with the zero target, increment the nonce and recompute.
Returns the accepted hash together with the mutated block. -/
def powLoop (H : Block → String) : Nat → Block → Option (String × Block)
  | fuel, b =>
    if strStartsWith (Block.compute_hash H b) zeroTarget then
      some (Block.compute_hash H b, b)
    else
      match fuel with
      | 0 => none
      | f + 1 => powLoop H f { b with nonce := b.nonce + 1 }

/-- Blockchain.proof_of_work(block): sets block.nonce = 0, then runs the
search loop. none models a search that has not terminated within fuel. -/
def proof_of_work (H : Block → String) (fuel : Nat) (block : Block) :
    Option (String × Block) :=
  powLoop H fuel { block with nonce := 0 }

/-- Blockchain.add_block(block, proof): reads the tip hash (Option
models the IndexError / missing-attribute cases, unreachable from the
public flow); rejects without mutation when the linkage or the proof
check fails, otherwise assigns block.hash = proof and appends. -/
def add_block (H : Block → String) (s : Blockchain) (block : Block)
    (proof : String) : Option (Bool × Blockchain) :=
  match s.last_block with
  | none => none
  | some last =>
    match last.hash with
    | none => none
    | some previous_hash =>
      if prevHashMatches previous_hash block.previous_hash = false then
        some (false, s)
      else if is_valid_proof H block proof = false then
        some (false, s)
      else
        some (true,
          { s with chain := s.chain ++ [{ block with hash := some proof }] })

/-- Blockchain.add_new_transaction(transaction): append to the pool. -/
def add_new_transaction (s : Blockchain) (t : Transaction) : Blockchain :=
  { s with
    unconfirmed_transactions := s.unconfirmed_transactions ++ [t] }

/-- Blockchain.mine(): returns False (modelled none) on an empty pool;
otherwise builds the candidate block from the pool (each transaction
serialized and re-parsed to a dictionary), runs proof_of_work, clears
the pool unconditionally, then attempts add_block; on success returns
the new block index, else False. The outer Option is none exactly when
the Python call would not return (IndexError, missing attribute, or a
proof search that has not terminated within fuel). -/
def mine (H : Block → String) (fuel : Nat) (ts : String)
    (s : Blockchain) : Option (Option Nat × Blockchain) :=
  if s.unconfirmed_transactions.isEmpty then some (none, s)
  else
    match s.last_block with
    | none => none
    | some last =>
      match last.hash with
      | none => none
      | some lh =>
        let new_block : Block :=
          { index := last.index + 1,
            transactions :=
              s.unconfirmed_transactions.map TxEntry.ofTx,
            timestamp := ts,
            previous_hash := PrevHash.strVal lh,
            nonce := 0, hash := none }
        match proof_of_work H fuel new_block with
        | none => none
        | some (proof, nb) =>
          let s1 : Blockchain :=
            { s with unconfirmed_transactions := [] }
          match add_block H s1 nb proof with
          | none => none
          | some (true, s2) => some (some nb.index, s2)
          | some (false, s2) => some (none, s2)

/-- Adjacency relation along the chain: the successor stores the
predecessors assigned hash as its previous_hash, and its index is the
predecessors index plus one. -/
def LinkedNext (p c : Block) : Prop :=
  (∃ ph, p.hash = some ph ∧ c.previous_hash = PrevHash.strVal ph) ∧
    c.index = p.index + 1

/-- Chain well-formedness: every stored block carries an assigned hash
attribute and adjacent blocks are linked. -/
def chainInv (l : List Block) : Prop :=
  (∀ b ∈ l, b.hash ≠ none) ∧ List.Chain' LinkedNext l

/-- States reachable from a fresh Blockchain by any sequence of
add_new_transaction calls and completed mine calls (a completed mine is
one returning some result, successful or not). -/
inductive Reachable (H : Block → String) : Blockchain → Prop
  | init (ts : String) : Reachable H (Blockchain.init H ts)
  | addTx {s : Blockchain} (t : Transaction) :
      Reachable H s → Reachable H (add_new_transaction s t)
  | mineStep {s : Blockchain} (fuel : Nat) (ts : String)
      {r : Option Nat} {s' : Blockchain} :
      Reachable H s → mine H fuel ts s = some (r, s') → Reachable H s'

/-- Number of leading zero characters of a string. -/
def leadingZeros (s : String) : Nat :=
  (s.toList.takeWhile (fun c => c == Char.ofNat 48)).length

/-! ## Concrete objects used by witnesses and counterexamples -/

/-- A digest function whose every output is the three-character zero
string; used to run the operations concretely. -/
def cW : Block → String := fun _ => "000"

/-- A concrete transaction. -/
def txW : Transaction :=
  { sender := "A", receiver := "B", data := "d", amount := 8,
    timestamp := "u" }

/-- Fresh chain built with cW and genesis timestamp g. -/
def genesisW : Blockchain := Blockchain.init cW "g"

/-- The genesis block of genesisW, written out. -/
def genesisBlockW : Block :=
  { index := 0, transactions := [TxEntry.genesisMarker], timestamp := "g",
    previous_hash := PrevHash.intVal 0, nonce := 0, hash := some "000" }

/-- genesisW with txW submitted to the pool. -/
def poolW : Blockchain := add_new_transaction genesisW txW

/-- The block mined from poolW at timestamp t. -/
def minedBlockW : Block :=
  { index := 1, transactions := [TxEntry.ofTx txW], timestamp := "t",
    previous_hash := PrevHash.strVal "000", nonce := 0, hash := some "000" }

/-- The state after mining poolW. -/
def minedW : Blockchain :=
  { unconfirmed_transactions := [], chain := [genesisBlockW, minedBlockW] }

/-- The mined candidate before its hash attribute is assigned. -/
def candW : Block :=
  { index := 1, transactions := [TxEntry.ofTx txW], timestamp := "t",
    previous_hash := PrevHash.strVal "000", nonce := 0, hash := none }

/-- candW with a previous_hash that does not match the tip. -/
def badW : Block := { candW with previous_hash := PrevHash.strVal "zzz" }

/-- A block entering the proof-of-work search with a nonzero nonce. -/
def powStartW : Block :=
  { index := 2, transactions := [], timestamp := "t",
    previous_hash := PrevHash.strVal "000", nonce := 7, hash := none }

/-- powStartW after the search reset its nonce to 0. -/
def powEndW : Block := { powStartW with nonce := 0 }

/-- A digest function whose every output has four leading zeros. -/
def fourZeroH : Block → String := fun _ => "0000"

/-- A digest function that distinguishes a present hash attribute from
an absent one, as the real SHA-256 of the serialized dictionary does
absent a collision. -/
def hashFieldH : Block → String :=
  fun b => match b.hash with
  | none => "A"
  | some _ => "B"

/-- A block before its hash attribute is assigned. -/
def preAssignB : Block :=
  { index := 0, transactions := [TxEntry.genesisMarker], timestamp := "g",
    previous_hash := PrevHash.intVal 0, nonce := 0, hash := none }

/-- A digest function that depends on the amount of the single pooled
transaction; used to exhibit tamper detection concretely. -/
def tamperH : Block → String :=
  fun b => match b.transactions with
  | [TxEntry.ofTx t] => if t.amount = 8 then "000a" else "000b"
  | _ => "000z"

/-- A block holding one transaction of amount 8. -/
def tamperB : Block :=
  { index := 1, transactions := [TxEntry.ofTx txW], timestamp := "t",
    previous_hash := PrevHash.strVal "p", nonce := 0, hash := none }

/-- tamperB with the amount of its transaction mutated to 9. -/
def tamperB2 : Block :=
  { tamperB with
    transactions := [TxEntry.ofTx { txW with amount := 9 }] }

/-- A constant digest function used for the add_block index check. -/
def arbH : Block → String := fun _ => "000c"

/-- Fresh chain built with arbH. -/
def arbBaseW : Blockchain := Blockchain.init arbH "g"

/-- A block whose index is 999, far from tip index plus one, but whose
linkage and proof are valid for arbBaseW. -/
def oddB : Block :=
  { index := 999, transactions := [], timestamp := "t",
    previous_hash := PrevHash.strVal "000c", nonce := 5, hash := none }

/-- A block fed to the search under fourZeroH. -/
def fourZeroB : Block :=
  { index := 1, transactions := [], timestamp := "t",
    previous_hash := PrevHash.strVal "x", nonce := 0, hash := none }

/-- The genesis block of arbBaseW, written out. -/
def arbGenB : Block :=
  { index := 0, transactions := [TxEntry.genesisMarker], timestamp := "g",
    previous_hash := PrevHash.intVal 0, nonce := 0, hash := some "000c" }

/-! ## Helper lemmas about the proof-of-work loop -/

/-- Soundness invariant of the search loop: a successful run starting at
block b returns the hash of the final block, which differs from b only
in its nonce; the final nonce is at least the starting nonce, the hash
meets the difficulty target, and every nonce from the starting one up to
(excluding) the final one fails the target. -/
theorem powLoop_sound (H : Block → String) (fuel : Nat) :
    ∀ (b : Block) (hs : String) (b' : Block),
      powLoop H fuel b = some (hs, b') →
      b' = { b with nonce := b'.nonce } ∧
      b.nonce ≤ b'.nonce ∧
      hs = Block.compute_hash H b' ∧
      strStartsWith hs zeroTarget = true ∧
      ∀ m, b.nonce ≤ m → m < b'.nonce →
        strStartsWith (Block.compute_hash H { b with nonce := m }) zeroTarget
          = false := by
  induction fuel with
  | zero =>
    intro b hs b' hrun
    rw [powLoop] at hrun
    by_cases hc : strStartsWith (Block.compute_hash H b) zeroTarget
    · simp only [hc, if_true, Option.some.injEq, Prod.mk.injEq] at hrun
      obtain ⟨rfl, rfl⟩ := hrun
      refine ⟨rfl, le_refl _, rfl, hc, ?_⟩
      intro m h1 h2
      exact absurd (lt_of_le_of_lt h1 h2) (lt_irrefl _)
    · simp [hc] at hrun
  | succ f ih =>
    intro b hs b' hrun
    rw [powLoop] at hrun
    by_cases hc : strStartsWith (Block.compute_hash H b) zeroTarget
    · simp only [hc, if_true, Option.some.injEq, Prod.mk.injEq] at hrun
      obtain ⟨rfl, rfl⟩ := hrun
      refine ⟨rfl, le_refl _, rfl, hc, ?_⟩
      intro m h1 h2
      exact absurd (lt_of_le_of_lt h1 h2) (lt_irrefl _)
    · simp only [hc, if_false, Bool.false_eq_true] at hrun
      obtain ⟨he, hle, hh, hst, hmin⟩ := ih { b with nonce := b.nonce + 1 } hs b' hrun
      refine ⟨he, le_trans (Nat.le_succ _) hle, hh, hst, ?_⟩
      intro m h1 h2
      rcases Nat.eq_or_lt_of_le h1 with h1 | h1
      · have hb : ({ b with nonce := m } : Block) = b := by
          rw [← h1]
        rw [hb]
        exact Bool.of_not_eq_true hc
      · exact hmin m h1 h2

/-! ## Helper lemmas about add_block and mine -/

/-- Every completed add_block call either returns false with the state
untouched, or returns true with the block (hash attribute assigned to
the proof) appended. -/
theorem add_block_cases (H : Block → String) (s : Blockchain)
    (block : Block) (proof : String) (r : Bool) (s' : Blockchain)
    (h : add_block H s block proof = some (r, s')) :
    (r = false ∧ s' = s) ∨
    (r = true ∧
      s' = { s with
        chain := s.chain ++ [{ block with hash := some proof }] }) := by
  unfold add_block at h
  split at h
  · cases h
  · split at h
    · cases h
    · split at h
      · simp only [Option.some.injEq, Prod.mk.injEq] at h
        exact Or.inl ⟨h.1.symm, h.2.symm⟩
      · split at h
        · simp only [Option.some.injEq, Prod.mk.injEq] at h
          exact Or.inl ⟨h.1.symm, h.2.symm⟩
        · simp only [Option.some.injEq, Prod.mk.injEq] at h
          exact Or.inr ⟨h.1.symm, h.2.symm⟩

/-- add_block never touches the pending pool. -/
theorem add_block_pool (H : Block → String) (s : Blockchain)
    (block : Block) (proof : String) (r : Bool) (s' : Blockchain)
    (h : add_block H s block proof = some (r, s')) :
    s'.unconfirmed_transactions = s.unconfirmed_transactions := by
  rcases add_block_cases H s block proof r s' h with ⟨_, rfl⟩ | ⟨_, rfl⟩ <;>
    rfl

/-- A true return of add_block determines the new state. -/
theorem add_block_true (H : Block → String) (s : Blockchain)
    (block : Block) (proof : String) (s' : Blockchain)
    (h : add_block H s block proof = some (true, s')) :
    s' = { s with
      chain := s.chain ++ [{ block with hash := some proof }] } := by
  rcases add_block_cases H s block proof true s' h with ⟨hf, _⟩ | ⟨_, hs⟩
  · cases hf
  · exact hs

/-- mine on an empty pool returns False and the state unchanged. -/
theorem mine_empty_pool (H : Block → String) (fuel : Nat) (ts : String)
    (s : Blockchain) (he : s.unconfirmed_transactions = []) :
    mine H fuel ts s = some (none, s) := by
  unfold mine
  rw [he]
  rfl

/-- Shape of every completed mine call on a nonempty pool: the tip and
its hash exist, the proof-of-work search completed on the candidate
built from the pool, and the result is exactly the add_block outcome on
the state with the pool cleared. -/
theorem mine_shape (H : Block → String) (fuel : Nat) (ts : String)
    (s : Blockchain) (r : Option Nat) (s' : Blockchain)
    (hne : s.unconfirmed_transactions ≠ [])
    (h : mine H fuel ts s = some (r, s')) :
    ∃ last lh proof nb,
      s.last_block = some last ∧ last.hash = some lh ∧
      proof_of_work H fuel
        { index := last.index + 1,
          transactions := s.unconfirmed_transactions.map TxEntry.ofTx,
          timestamp := ts, previous_hash := PrevHash.strVal lh,
          nonce := 0, hash := none } = some (proof, nb) ∧
      ∃ rb,
        add_block H { s with unconfirmed_transactions := [] } nb proof =
          some (rb, s') ∧
        ((rb = true ∧ r = some nb.index) ∨ (rb = false ∧ r = none)) := by
  unfold mine at h
  split at h
  · rename_i hemp
    exact absurd (List.isEmpty_iff.mp hemp) hne
  · split at h
    · cases h
    · rename_i last hlast
      split at h
      · cases h
      · rename_i lh hlh
        dsimp only [] at h
        split at h
        · cases h
        · rename_i proof nb hpow
          split at h
          · cases h
          · rename_i s2 hab
            simp only [Option.some.injEq, Prod.mk.injEq] at h
            exact ⟨last, lh, proof, nb, hlast, hlh, hpow,
              true, h.2 ▸ hab, Or.inl ⟨rfl, h.1.symm⟩⟩
          · rename_i s2 hab
            simp only [Option.some.injEq, Prod.mk.injEq] at h
            exact ⟨last, lh, proof, nb, hlast, hlh, hpow,
              false, h.2 ▸ hab, Or.inr ⟨rfl, h.1.symm⟩⟩

/-- If a replicate of n copies of c is a Boolean prefix of l, then the
run of characters equal to c at the head of l has length at least n. -/
theorem takeWhile_ge_of_replicate_isPrefixOf (c : Char) :
    ∀ (n : Nat) (l : List Char),
      (List.replicate n c).isPrefixOf l = true →
      n ≤ (l.takeWhile (fun x => x == c)).length := by
  intro n
  induction n with
  | zero => intro l _; exact Nat.zero_le _
  | succ k ih =>
    intro l hp
    cases l with
    | nil => cases hp
    | cons b bs =>
      rw [List.replicate_succ, List.isPrefixOf_cons₂] at hp
      have hparts := (Bool.and_eq_true _ _).mp hp
      have hcb : c = b := eq_of_beq hparts.1
      subst hcb
      rw [List.takeWhile_cons]
      simp only [beq_self_eq_true, if_true, List.length_cons]
      exact Nat.succ_le_succ (ih bs hparts.2)

/-- Every string meeting the difficulty target has at least DIFFICULTY
leading zero characters. -/
theorem leadingZeros_ge_of_target (s : String)
    (h : strStartsWith s zeroTarget = true) :
    DIFFICULTY ≤ leadingZeros s := by
  unfold strStartsWith at h
  unfold leadingZeros
  exact takeWhile_ge_of_replicate_isPrefixOf (Char.ofNat 48) DIFFICULTY
    s.toList h

/-- Every state reachable through the public operations has a chain in
which every stored block carries an assigned hash attribute and every
adjacent pair is linked: the successor stores the predecessors hash and
increments its index. -/
theorem reachable_chainInv (H : Block → String) (s : Blockchain)
    (hr : Reachable H s) : chainInv s.chain := by
  induction hr with
  | init ts =>
    unfold chainInv
    constructor
    · intro b hb
      simp only [Blockchain.init, create_genesis_block, List.nil_append,
        List.mem_singleton] at hb
      subst hb
      simp
    · exact List.chain'_singleton _
  | addTx t hprev ih => exact ih
  | mineStep fuel ts hprev hmine ih =>
    rename_i st r s2
    by_cases hne : st.unconfirmed_transactions = []
    · rw [mine_empty_pool H fuel ts st hne] at hmine
      simp only [Option.some.injEq, Prod.mk.injEq] at hmine
      rw [← hmine.2]
      exact ih
    · obtain ⟨last, lh, proof, nb, hlast, hlh, hpow, rb, hab, _⟩ :=
        mine_shape H fuel ts st r s2 hne hmine
      rcases add_block_cases H _ nb proof rb s2 hab with ⟨_, rfl⟩ | ⟨_, rfl⟩
      · exact ih
      · unfold proof_of_work at hpow
        obtain ⟨hnb, _, _, _, _⟩ := powLoop_sound H fuel _ proof nb hpow
        have hprev2 : nb.previous_hash = PrevHash.strVal lh := by rw [hnb]
        have hidx : nb.index = last.index + 1 := by rw [hnb]
        show chainInv (st.chain ++ [{ nb with hash := some proof }])
        unfold chainInv
        constructor
        · intro b hb
          rcases List.mem_append.mp hb with hb | hb
          · exact ih.1 b hb
          · rw [List.mem_singleton] at hb
            subst hb
            simp
        · refine List.Chain'.append ih.2 (List.chain'_singleton _) ?_
          intro x hx y hy
          have hx2 : x = last := by
            have hgl : st.chain.getLast? = some last := hlast
            rw [hgl, Option.mem_some_iff] at hx
            exact hx.symm
          have hy2 : y = { nb with hash := some proof } := by
            rw [List.head?_cons, Option.mem_some_iff] at hy
            exact hy.symm
          subst hx2
          subst hy2
          exact ⟨⟨lh, hlh, hprev2⟩, hidx⟩

/-! ## Claim theorems -/

/-- C1: for every chain state with a non-empty pending pool, every
completed mine call leaves the pending-transaction pool empty, whatever
value it returns — the pool is cleared before the internal add_block
runs, so the result state has an empty pool whether the add succeeded
(result some index) or failed (result none). -/
theorem mine_clears_pool (H : Block → String) (fuel : Nat) (ts : String)
    (s : Blockchain) (r : Option Nat) (s' : Blockchain)
    (hne : s.unconfirmed_transactions ≠ [])
    (h : mine H fuel ts s = some (r, s')) :
    s'.unconfirmed_transactions = [] := by
  obtain ⟨last, lh, proof, nb, _, _, _, rb, hab, _⟩ :=
    mine_shape H fuel ts s r s' hne h
  exact add_block_pool H _ nb proof rb s' hab

/-- Witness for C1: a concrete mine run on a one-transaction pool ends
with an empty pool. -/
theorem mine_clears_pool_witness : minedW.unconfirmed_transactions = [] :=
  mine_clears_pool cW 0 "t" poolW (some 1) minedW (by decide) (by decide)

/-- C4: is_valid_proof(block, claimed_hash) is true exactly when the
claimed hash begins with the DIFFICULTY = 3 zero characters and equals
the fingerprint recomputed fresh from the blocks current field values. -/
theorem is_valid_proof_iff (H : Block → String) (b : Block) (s : String) :
    is_valid_proof H b s = true ↔
      (strStartsWith s "000" = true ∧ s = Block.compute_hash H b) := by
  have hz : zeroTarget = "000" := by decide
  rw [is_valid_proof, hz, Bool.and_eq_true, beq_iff_eq]

/-- C3: a completed add_block call rejects, returning false and leaving
the state untouched, exactly when the linkage check or the proof check
fails; otherwise it returns true having appended the block with its
hash attribute assigned to the proof; and these are the only two
outcomes. -/
theorem add_block_spec (H : Block → String) (s : Blockchain)
    (block : Block) (proof : String) (last : Block) (lh : String)
    (hl : s.last_block = some last) (hh : last.hash = some lh) :
    ((prevHashMatches lh block.previous_hash = false ∨
        is_valid_proof H block proof = false) →
      add_block H s block proof = some (false, s)) ∧
    (prevHashMatches lh block.previous_hash = true →
      is_valid_proof H block proof = true →
      add_block H s block proof =
        some (true,
          { s with
            chain := s.chain ++ [{ block with hash := some proof }] })) ∧
    (∀ r s', add_block H s block proof = some (r, s') →
      (r = false ∧ s' = s) ∨
      (r = true ∧
        s' = { s with
          chain := s.chain ++ [{ block with hash := some proof }] })) := by
  refine ⟨?_, ?_, fun r s' => add_block_cases H s block proof r s'⟩
  · intro hrej
    unfold add_block
    simp only [hl, hh]
    rcases hrej with h1 | h1
    · rw [if_pos h1]
    · by_cases h2 : prevHashMatches lh block.previous_hash = false
      · rw [if_pos h2]
      · rw [if_neg h2, if_pos h1]
  · intro h1 h2
    unfold add_block
    simp only [hl, hh]
    rw [if_neg (by simp [h1]), if_neg (by simp [h2])]

/-- Witness for C3: on a concrete fresh chain, a candidate with matching
linkage and valid proof is appended with its hash assigned, and a
candidate with mismatched linkage is rejected with the state unchanged. -/
theorem add_block_spec_witness :
    add_block cW genesisW candW "000" =
      some (true,
        { genesisW with
          chain := genesisW.chain ++ [{ candW with hash := some "000" }] }) ∧
    add_block cW genesisW badW "000" = some (false, genesisW) :=
  ⟨(add_block_spec cW genesisW candW "000" genesisBlockW "000"
      (by decide) (by decide)).2.1 (by decide) (by decide),
   (add_block_spec cW genesisW badW "000" genesisBlockW "000"
      (by decide) (by decide)).1 (Or.inl (by decide))⟩

/-- C7: after a successful mine the pool is empty and the chain grew by
exactly one block; mine on an empty pool returns False with the whole
state, chain included, unchanged. -/
theorem mine_pool_lifecycle (H : Block → String) (fuel : Nat)
    (ts : String) (s : Blockchain) :
    (∀ idx s', mine H fuel ts s = some (some idx, s') →
      s'.unconfirmed_transactions = [] ∧
      s'.chain.length = s.chain.length + 1) ∧
    (s.unconfirmed_transactions = [] →
      mine H fuel ts s = some (none, s)) := by
  refine ⟨?_, mine_empty_pool H fuel ts s⟩
  intro idx s' h
  have hne : s.unconfirmed_transactions ≠ [] := by
    intro he
    rw [mine_empty_pool H fuel ts s he] at h
    simp at h
  obtain ⟨last, lh, proof, nb, _, _, _, rb, hab, hcase⟩ :=
    mine_shape H fuel ts s (some idx) s' hne h
  rcases hcase with ⟨hrb, _⟩ | ⟨_, hr⟩
  · subst hrb
    rw [add_block_true H _ nb proof s' hab]
    exact ⟨rfl, by simp⟩
  · cases hr

/-- Witness for C7: the concrete successful mine empties the pool and
lengthens the chain by one, and mine on the fresh (empty-pool) chain
returns False with the state unchanged. -/
theorem mine_pool_lifecycle_witness :
    (minedW.unconfirmed_transactions = [] ∧
      minedW.chain.length = poolW.chain.length + 1) ∧
    mine cW 0 "t" genesisW = some (none, genesisW) :=
  ⟨(mine_pool_lifecycle cW 0 "t" poolW).1 1 minedW (by decide),
   (mine_pool_lifecycle cW 0 "t" genesisW).2 (by decide)⟩

/-- C9: a terminating proof_of_work run is independent of the nonce the
block carried on entry (the nonce is reset to 0 first), and on return
the blocks nonce is the least natural number whose digest meets the
difficulty target, the returned hash being exactly that digest. -/
theorem proof_of_work_spec (H : Block → String) (fuel : Nat)
    (block : Block) (hs : String) (b' : Block)
    (h : proof_of_work H fuel block = some (hs, b')) :
    (∀ k, proof_of_work H fuel { block with nonce := k } = some (hs, b')) ∧
    b' = { block with nonce := b'.nonce } ∧
    hs = Block.compute_hash H b' ∧
    strStartsWith hs zeroTarget = true ∧
    ∀ m, m < b'.nonce →
      strStartsWith (Block.compute_hash H { block with nonce := m })
        zeroTarget = false := by
  unfold proof_of_work at h
  obtain ⟨he, _, hh, hst, hmin⟩ :=
    powLoop_sound H fuel { block with nonce := 0 } hs b' h
  exact ⟨fun _ => h, he, hh, hst,
    fun m hm => hmin m (Nat.zero_le m) hm⟩

/-- Witness for C9: the concrete search entered with nonce 7 gives the
same result as entered with nonce 5, namely the block reset to nonce 0. -/
theorem proof_of_work_spec_witness :
    proof_of_work cW 0 { powStartW with nonce := 5 } =
      some ("000", powEndW) :=
  (proof_of_work_spec cW 0 powStartW "000" powEndW (by decide)).1 5

/-- C5 (amended): a terminating proof_of_work run returns a hash that
has at least DIFFICULTY leading zero characters — it starts with the
three-zero target, but may carry more than three leading zeros — and
is_valid_proof accepts the mutated block with that hash immediately. -/
theorem proof_of_work_meets_difficulty (H : Block → String) (fuel : Nat)
    (B : Block) (hs : String) (B' : Block)
    (h : proof_of_work H fuel B = some (hs, B')) :
    strStartsWith hs zeroTarget = true ∧
    DIFFICULTY ≤ leadingZeros hs ∧
    is_valid_proof H B' hs = true := by
  unfold proof_of_work at h
  obtain ⟨_, _, hh, hst, _⟩ :=
    powLoop_sound H fuel { B with nonce := 0 } hs B' h
  refine ⟨hst, leadingZeros_ge_of_target hs hst, ?_⟩
  rw [is_valid_proof, hst, Bool.true_and, beq_iff_eq]
  exact hh

/-- Witness for C5: the concrete terminating search satisfies the
amended claim. -/
theorem proof_of_work_meets_difficulty_witness :
    strStartsWith "000" zeroTarget = true ∧
    DIFFICULTY ≤ leadingZeros "000" ∧
    is_valid_proof cW powEndW "000" = true :=
  proof_of_work_meets_difficulty cW 0 powStartW "000" powEndW (by decide)

/-- Counterexample for C5 as stated: under a digest function whose
output is the four-zero string, the search returns a hash whose count
of leading zero characters is 4, not exactly DIFFICULTY = 3. -/
theorem pow_hash_not_exactly_three_zeros :
    proof_of_work fourZeroH 0 fourZeroB =
      some ("0000", { fourZeroB with nonce := 0 }) ∧
    leadingZeros "0000" ≠ DIFFICULTY := ⟨by decide, by decide⟩

/-- C8: tamper detection. If (b, hs) passes is_valid_proof and the block
is mutated to any different block b2 whose digest differs from the
original digest (SHA-256 collision resistance supplies that inequality
for every actual mutation), then is_valid_proof on the mutated block
with the original hash returns false. -/
theorem tamper_detection (H : Block → String) (b b2 : Block)
    (hs : String) (hv : is_valid_proof H b hs = true) (_hmut : b2 ≠ b)
    (hcoll : Block.compute_hash H b2 ≠ Block.compute_hash H b) :
    is_valid_proof H b2 hs = false := by
  have hh : hs = Block.compute_hash H b := by
    rw [is_valid_proof, Bool.and_eq_true, beq_iff_eq] at hv
    exact hv.2
  rw [is_valid_proof]
  have hne : (hs == Block.compute_hash H b2) = false := by
    rw [beq_eq_false_iff_ne, hh]
    exact fun hcontra => hcoll hcontra.symm
  rw [hne, Bool.and_false]

/-- Witness for C8: a concrete valid pair, with the amount of the single
transaction mutated from 8 to 9, fails validation against the original
hash. -/
theorem tamper_detection_witness :
    is_valid_proof tamperH tamperB2 "000a" = false :=
  tamper_detection tamperH tamperB tamperB2 "000a" (by decide) (by decide)
    (by decide)

/-- C10: add_block checks only linkage and proof, never the index: on a
concrete fresh chain whose tip has index 0, a block of index 999 with
matching previous_hash and valid proof is accepted, appended and the
call returns true. -/
theorem add_block_ignores_index :
    arbBaseW.last_block = some arbGenB ∧ oddB.index ≠ arbGenB.index + 1 ∧
    is_valid_proof arbH oddB "000c" = true ∧
    add_block arbH arbBaseW oddB "000c" =
      some (true,
        { arbBaseW with
          chain := arbBaseW.chain ++ [{ oddB with hash := some "000c" }] }) :=
  ⟨by decide, by decide, by decide, by decide⟩

/-- C2 (code bug): compute_hash serializes the whole current __dict__,
so once the hash attribute has been assigned it becomes part of its own
hashing input: the hashed record differs from the pre-assignment one,
and any digest distinguishing the two inputs — as SHA-256 does absent a
collision — returns a different digest after assignment than before,
contradicting the stated invariant that the fingerprint is never part
of its own input. -/
theorem compute_hash_includes_assigned_hash :
    ({ preAssignB with hash := some "000x" } : Block) ≠ preAssignB ∧
    Block.compute_hash hashFieldH { preAssignB with hash := some "000x" } ≠
      Block.compute_hash hashFieldH preAssignB :=
  ⟨by decide, by decide⟩

/-- C6: in every chain built from a fresh Blockchain by any sequence of
add_new_transaction calls and completed mine calls, each non-genesis
block stores the fingerprint of its predecessor as previous_hash and an
index one greater than its predecessors. -/
theorem chain_linkage (H : Block → String) (s : Blockchain)
    (hr : Reachable H s) (i : Nat) (hi : i + 1 < s.chain.length) :
    (∃ ph, (s.chain.get ⟨i, Nat.lt_of_succ_lt hi⟩).hash = some ph ∧
      (s.chain.get ⟨i + 1, hi⟩).previous_hash = PrevHash.strVal ph) ∧
    (s.chain.get ⟨i + 1, hi⟩).index =
      (s.chain.get ⟨i, Nat.lt_of_succ_lt hi⟩).index + 1 := by
  have hinv := reachable_chainInv H s hr
  have hch := hinv.2
  rw [List.chain'_iff_get] at hch
  exact hch i (by omega)

/-- Witness for C6: the concrete two-block reachable chain satisfies the
linkage at position 0. -/
theorem chain_linkage_witness :
    (∃ ph, genesisBlockW.hash = some ph ∧
      minedBlockW.previous_hash = PrevHash.strVal ph) ∧
    minedBlockW.index = genesisBlockW.index + 1 := by
  have hpool : Reachable cW poolW :=
    Reachable.addTx txW (Reachable.init "g")
  have hmine : mine cW 0 "t" poolW = some (some 1, minedW) := by decide
  have hr : Reachable cW minedW := Reachable.mineStep 0 "t" hpool hmine
  exact chain_linkage cW minedW hr 0 (by decide)
